import Mathlib

/-!
Verification of the layer-acquisition and composition pipeline of
`src/scripts/main.js` (a Leaflet mapping application).

The JavaScript is embedded shallowly:

* A GeoJSON property value is `PropVal` (`null` or a string); a feature is
  its property mapping; `leaflet.setGeoJson` becomes a pure function
  producing a `Layer` that records the style and, for each feature, the
  popup content bound by `onEachFeature` (main.js lines 181-189, including
  the JavaScript loose comparison `feature.properties[labelAttr] == null`,
  which is true exactly for a missing property or a `null` one).
* A JavaScript object with string keys is an insertion-ordered association
  list `List (String × JVal)`; assignment `obj[k] = v` is `objInsert`
  (overwriting keeps the key's original position, a fresh key is appended),
  and `Object.entries` of such an object is the list itself.
  `leaflet.setFeatureLayers` (lines 158-171) folds `objInsert` over all
  entries of all layer groups.
* The recursive `XMLHttpRequest` sequencer `recursivexhttp` inside
  `leaflet.setAllControls` (lines 87-130) is driven by a network oracle
  `net : Nat → NetResult` giving, for step `i`, either no response
  (the `onload` callback never fires), a response whose body fails
  `JSON.parse`, or a parsed feature list.  The array `objects`, mutated in
  place at index `i` only, is represented as `done ++ todo` where
  `done.length = i`; `runAux` returns the event trace (request issued,
  response parsed, completion block executed), the successive snapshots of
  the array, its final contents, the mapping handed to
  `L.control.layers`, and the synchronous return value of the call
  (the `return` inside `req.onload` is discarded by the event loop, so
  only the base case reached synchronously, i.e. with an empty `objects`,
  produces a value).
* The map-click handler (lines 44-54) becomes a transition function on a
  state holding the user-placed markers currently on the map and the
  module-level `m.userInput` reference; marker identity (JavaScript object
  identity) is a fresh numeric id.

Tile layers, the scale bar, DOM lookups and the rendering engine internals
are outside the claims and are not modelled.
-/

/-- A GeoJSON property value: JavaScript `null` or a string. A missing
property reads as `undefined`, represented by `Option.none` at lookup. -/
inductive PropVal where
  | null : PropVal
  | str : String → PropVal
deriving DecidableEq, Repr

/-- One GeoJSON feature: its property mapping (geometry is irrelevant to
the claims). -/
structure Feature where
  props : List (String × PropVal)
deriving DecidableEq, Repr

/-- A CSS vector style, e.g. `{color: 'green'}` in main.js line 21. -/
structure Style where
  color : String
deriving DecidableEq, Repr

/-- Property lookup: `Option.none` models JavaScript `undefined` for a
missing key. -/
def lookupProp (props : List (String × PropVal)) (k : String) : Option PropVal :=
  match props.find? (fun p => p.1 = k) with
  | some p => some p.2
  | none => none

/-- JavaScript loose equality `v == null`: true for `undefined` (missing)
and for `null`, false for any string. -/
def jsEqNull : Option PropVal → Bool
  | none => true
  | some PropVal.null => true
  | some (PropVal.str _) => false

/-- The content `bindPopup` receives for one feature, main.js line 185:
the ternary
`feature.properties[labelAttr] == null ? 'Unnamed' : feature.properties[labelAttr]`. -/
def popupContent (props : List (String × PropVal)) (labelAttr : String) : PropVal :=
  if jsEqNull (lookupProp props labelAttr) then PropVal.str "Unnamed"
  else (lookupProp props labelAttr).getD PropVal.null

/-- A realized Leaflet layer: the uniform style and, per feature, the popup
bound to it by `onEachFeature`. -/
structure Layer where
  style : Style
  bound : List (Feature × PropVal)
deriving DecidableEq, Repr

/-- `leaflet.setGeoJson` (main.js lines 181-189): applies the style and
binds a popup to every feature of the parsed document. -/
def setGeoJson (json : List Feature) (labelAttr : String) (style : Style) : Layer :=
  { style := style
    bound := json.map (fun f => (f, popupContent f.props labelAttr)) }

/-- A value stored in one of the JavaScript objects the pipeline puts into
the `features` list: a realized layer, or (for a not-yet-realized
descriptor object) one of its string or style fields. -/
inductive JVal where
  | layer : Layer → JVal
  | str : String → JVal
  | style : Style → JVal
deriving DecidableEq, Repr

/-- JavaScript assignment `obj[key] = value` on a string-keyed object:
an existing key keeps its position and gets the new value, a fresh key is
appended. -/
def objInsert (m : List (String × JVal)) (k : String) (v : JVal) : List (String × JVal) :=
  if m.any (fun p => p.1 = k) then m.map (fun p => if p.1 = k then (k, v) else p)
  else m ++ [(k, v)]

/-- `leaflet.setFeatureLayers` (main.js lines 158-171): folds every
`[key, value]` entry of every object of `layerGroups` into one object via
`layersObject[key] = value`. -/
def setFeatureLayers (layerGroups : List (List (String × JVal))) : List (String × JVal) :=
  layerGroups.foldl (fun acc obj => obj.foldl (fun l kv => objInsert l kv.1 kv.2) acc) []

/-- The value a JavaScript object stores under a key: the first (and,
since keys are unique, only) entry with that key. -/
def valueAt (m : List (String × JVal)) (k : String) : Option JVal :=
  (m.find? (fun p => p.1 = k)).map Prod.snd

/-- A layer descriptor, main.js lines 20-23:
`{name: ..., attr: ..., src: ..., style: ...}`. -/
structure Descriptor where
  name : String
  attr : String
  src : String
  style : Style
deriving DecidableEq, Repr

/-- One element of the `objects` array handed to `setAllControls`: initially
a descriptor, replaced in place (line 121) by the one-key object
`{[objects[i].name]: Layer}`. -/
inductive Entry where
  | desc : Descriptor → Entry
  | realized : String → Layer → Entry
deriving DecidableEq, Repr

/-- Whether an entry has been replaced by a realized one-key object. -/
def Entry.isRealized : Entry → Bool
  | Entry.desc _ => false
  | Entry.realized _ _ => true

/-- `Object.entries` of the JavaScript object an `Entry` stands for:
a descriptor object enumerates its four configuration fields in insertion
order, a realized entry is the one-key `{name: Layer}` object. -/
def entryAssoc : Entry → List (String × JVal)
  | Entry.desc d =>
      [("name", JVal.str d.name), ("attr", JVal.str d.attr),
       ("src", JVal.str d.src), ("style", JVal.style d.style)]
  | Entry.realized n l => [(n, JVal.layer l)]

/-- Outcome of the retrieval issued at step `i`: the `onload` callback
never fires (network failure), fires but `JSON.parse` throws, or fires with
a body parsing to a feature list. -/
inductive NetResult where
  | noResponse : NetResult
  | badResponse : NetResult
  | ok : List Feature → NetResult
deriving DecidableEq, Repr

/-- Whether the step's retrieval succeeded end to end. -/
def NetResult.isOk : NetResult → Bool
  | NetResult.ok _ => true
  | _ => false

/-- The parsed feature list of a successful response (junk for a failure). -/
def NetResult.feats : NetResult → List Feature
  | NetResult.ok fs => fs
  | _ => []

/-- An observable event of the sequencer: `request i` is
`req.open('GET', objects[i].src); req.send()` (lines 114-115), `parsed i`
is the body of `req.onload` replacing `objects[i]` (lines 117-121), and
`complete` is the base-case block building `features`, assembling the
mapping and attaching the layer control (lines 98-110). -/
inductive Event where
  | request : Nat → Event
  | parsed : Nat → Event
  | complete : Event
deriving DecidableEq, Repr

/-- Bool test for a request event. -/
def Event.isRequest : Event → Bool
  | Event.request _ => true
  | _ => false

/-- Bool test for a parsed event. -/
def Event.isParsed : Event → Bool
  | Event.parsed _ => true
  | _ => false

/-- Bool test for the completion event. -/
def Event.isComplete : Event → Bool
  | Event.complete => true
  | _ => false

/-- What one run of `recursivexhttp` produces: its event trace, the
successive snapshots of the `objects` array (one per entry into
`recursivexhttp`), the array's final contents, the mapping handed to
`L.control.layers` (none if the completion block never ran), and the
synchronous return value of the call. -/
structure RunResult where
  trace : List Event
  states : List (List Entry)
  objects : List Entry
  control : Option (List (String × JVal))
  retVal : Option (List (List (String × JVal)))
deriving DecidableEq, Repr

/-- `recursivexhttp (i, req, objects)` (main.js lines 95-127), with the
array `objects` split as `done ++ todo` at the cursor `i = done.length`.
`todo = []` is the base case `i == objects.length`: push the pre-parsed
features then the array's objects into `features`, assemble the mapping,
attach the control and return `features`.  Otherwise the request for
`objects[i].src` is issued; on a successful response the body is parsed,
`objects[i]` is overwritten with the realized one-key object and the
recursion continues at `i + 1` inside `req.onload` (whose return value the
event loop discards, hence `retVal := none`); a retrieval failure or a
`JSON.parse` exception stops everything after the request.  A realized
entry at the cursor cannot arise from any initial descriptor array; the
JavaScript would request the literal URL string built from an undefined
`src`, which never yields a feature collection, so that corner also
halts. -/
def runAux (net : Nat → NetResult) (preparsedFeatures : List (List (String × JVal)))
    (done : List Entry) : List Entry → RunResult
  | [] =>
      let features := preparsedFeatures ++ done.map entryAssoc
      { trace := [Event.complete]
        states := [done]
        objects := done
        control := some (setFeatureLayers features)
        retVal := some features }
  | e :: todo =>
      match net done.length, e with
      | NetResult.ok fs, Entry.desc d =>
          let layer := setGeoJson fs d.attr d.style
          let rest := runAux net preparsedFeatures
            (done ++ [Entry.realized d.name layer]) todo
          { trace := Event.request done.length :: Event.parsed done.length :: rest.trace
            states := (done ++ e :: todo) :: rest.states
            objects := rest.objects
            control := rest.control
            retVal := none }
      | _, _ =>
          { trace := [Event.request done.length]
            states := [done ++ e :: todo]
            objects := done ++ e :: todo
            control := none
            retVal := none }

/-- `leaflet.setAllControls` (main.js lines 87-130): starts
`recursivexhttp(0, xhttp, objects)` and returns its synchronous value.
The tile set and the map object only feed the external control-attach call
and are not modelled. -/
def setAllControls (net : Nat → NetResult) (objects : List Entry)
    (preparsedFeatures : List (List (String × JVal))) : RunResult :=
  runAux net preparsedFeatures [] objects

/-- A click location (coordinates are opaque to the claims). -/
structure LatLng where
  lat : Int
  lng : Int
deriving DecidableEq, Repr

/-- A marker placed on the map; `id` models JavaScript object identity,
`popup` the text bound at creation. -/
structure Marker where
  id : Nat
  pos : LatLng
  popup : String
deriving DecidableEq, Repr

/-- The state the click handler acts on: the user-placed markers currently
on the map and the module-level `m.userInput` reference. `nextId` supplies
fresh object identities. -/
structure ClickState where
  mapMarkers : List Marker
  userInput : Option Marker
  nextId : Nat
deriving DecidableEq, Repr

/-- `map.removeLayer(mk)`: removes that very object from the map. -/
def removeLayer (s : ClickState) (mk : Marker) : ClickState :=
  { s with mapMarkers := s.mapMarkers.filter (fun m => m.id ≠ mk.id) }

/-- The `map.on('click', ...)` handler, main.js lines 44-54 (the
coordinate readout and message hiding touch only the DOM): if
`m.userInput` is defined remove it from the map, then add a fresh marker
at the click location, bind its popup and store it in `m.userInput`. -/
def onClick (s : ClickState) (pos : LatLng) : ClickState :=
  let s1 := match s.userInput with
    | some mk => removeLayer s mk
    | none => s
  let mk : Marker := { id := s1.nextId, pos := pos, popup := "Possible Enemy Location" }
  { mapMarkers := s1.mapMarkers ++ [mk]
    userInput := some mk
    nextId := s1.nextId + 1 }

/-- Initial click state: no user marker yet (`m.userInput` undefined). -/
def initClickState : ClickState :=
  { mapMarkers := [], userInput := none, nextId := 0 }

/-- The state after a sequence of map clicks. -/
def runClicks (clicks : List LatLng) : ClickState :=
  clicks.foldl onClick initClickState

/-- Relation between an array slot's original content and its content at a
later time: unchanged, or a descriptor realized under its own name. -/
def entryEvolved (e₀ e : Entry) : Prop :=
  e = e₀ ∨ ∃ d l, e₀ = Entry.desc d ∧ e = Entry.realized d.name l

/-- Order discipline of a trace produced from cursor `i`: a request for a
step `j + 1` only appears after the parse of step `j` (when `j` is within
the part of the sequence run from `i`), and no request below `i` occurs. -/
def seqOrd (i : Nat) (evs : List Event) : Prop :=
  ∀ j pre post, evs = pre ++ Event.request (j + 1) :: post →
    i ≤ j + 1 ∧ (i ≤ j → Event.parsed j ∈ pre)

/-- At most one retrieval is in flight: in every prefix of the trace the
number of issued requests exceeds the number of parses by at most one. -/
def onePending (evs : List Event) : Prop :=
  ∀ pre post, evs = pre ++ post →
    pre.countP Event.isRequest ≤ pre.countP Event.isParsed + 1

/-- The one-key objects the descriptors from position `i` on become when
every retrieval succeeds, in descriptor input order. -/
def realizedObjects (net : Nat → NetResult) : Nat → List Descriptor → List (List (String × JVal))
  | _, [] => []
  | i, d :: ds =>
      [(d.name, JVal.layer (setGeoJson (net i).feats d.attr d.style))]
        :: realizedObjects net (i + 1) ds

/-- One transition of the `objects` array: the descriptor at some index
`i` whose retrieval succeeded is overwritten, via `set`, with the one-key
object holding its parsed layer under its own name.  Nothing else moves. -/
def fetchStep (net : Nat → NetResult) (s s2 : List Entry) : Prop :=
  ∃ i d fs, s[i]? = some (Entry.desc d) ∧ net i = NetResult.ok fs ∧
    s2 = s.set i (Entry.realized d.name (setGeoJson fs d.attr d.style))

/-! ### Helper lemmas about lists -/

/-- Setting the element just past a left part rewrites the head of the
right part. -/
lemma set_append_cons {α : Type} (l₁ l₂ : List α) (a b : α) :
    (l₁ ++ a :: l₂).set l₁.length b = l₁ ++ b :: l₂ := by
  induction l₁ with
  | nil => rfl
  | cons x l₁ ih => simp [List.set, ih]

/-- Reading the element just past a left part yields the head of the right
part. -/
lemma getElem?_append_cons {α : Type} (l₁ l₂ : List α) (a : α) :
    (l₁ ++ a :: l₂)[l₁.length]? = some a := by
  induction l₁ with
  | nil => simp
  | cons x l₁ ih => simpa using ih

/-! ### How one array slot evolves during the fetch sequence -/

lemma entryEvolved_refl (e : Entry) : entryEvolved e e := Or.inl rfl

lemma entryEvolved_trans {a b c : Entry}
    (h₁ : entryEvolved a b) (h₂ : entryEvolved b c) : entryEvolved a c := by
  rcases h₂ with rfl | ⟨d, l, rfl, rfl⟩
  · exact h₁
  · rcases h₁ with rfl | ⟨d', l', h, h'⟩
    · exact Or.inr ⟨d, l, rfl, rfl⟩
    · cases h'

lemma forall₂_entryEvolved_trans :
    ∀ {l₁ l₂ l₃ : List Entry}, List.Forall₂ entryEvolved l₁ l₂ →
      List.Forall₂ entryEvolved l₂ l₃ → List.Forall₂ entryEvolved l₁ l₃ := by
  intro l₁ l₂ l₃ h₁ h₂
  induction h₁ generalizing l₃ with
  | nil => cases h₂; exact List.Forall₂.nil
  | cons h t ih =>
      cases h₂ with
      | cons h' t' => exact List.Forall₂.cons (entryEvolved_trans h h') (ih t')

/-! ### Core lemmas about the fetch sequencer -/

/-- The completion block appears at most once in any trace. -/
lemma runAux_countComplete (net : Nat → NetResult)
    (pres : List (List (String × JVal))) :
    ∀ (todo done : List Entry),
      ((runAux net pres done todo).trace.countP Event.isComplete) ≤ 1 := by
  intro todo
  induction todo with
  | nil => intro done; simp [runAux, Event.isComplete]
  | cons e todo ih =>
      intro done
      cases e with
      | desc d =>
          cases hnet : net done.length with
          | ok fs =>
              simpa [runAux, hnet, List.countP_cons, Event.isComplete] using ih _
          | noResponse => simp [runAux, hnet, Event.isComplete]
          | badResponse => simp [runAux, hnet, Event.isComplete]
      | realized n l =>
          cases hnet : net done.length <;> simp [runAux, hnet, Event.isComplete]

/-- If the completion block ran, every slot of the final array holds a
realized entry (given that the already-processed prefix does). -/
lemma runAux_complete_realized (net : Nat → NetResult)
    (pres : List (List (String × JVal))) :
    ∀ (todo done : List Entry), (∀ e ∈ done, e.isRealized = true) →
      Event.complete ∈ (runAux net pres done todo).trace →
      ∀ e ∈ (runAux net pres done todo).objects, e.isRealized = true := by
  intro todo
  induction todo with
  | nil => intro done hdone _ ; simpa [runAux] using hdone
  | cons e todo ih =>
      intro done hdone hmem
      cases e with
      | desc d =>
          cases hnet : net done.length with
          | ok fs =>
              simp only [runAux, hnet] at hmem ⊢
              refine ih _ ?_ ?_
              · intro e he
                rcases List.mem_append.mp he with h | h
                · exact hdone e h
                · simp only [List.mem_singleton] at h
                  subst h; rfl
              · simpa using hmem
          | noResponse => simp [runAux, hnet] at hmem
          | badResponse => simp [runAux, hnet] at hmem
      | realized n l =>
          cases hnet : net done.length <;> simp [runAux, hnet] at hmem

lemma forall₂_entryEvolved_refl (l : List Entry) : List.Forall₂ entryEvolved l l :=
  List.forall₂_same.mpr (fun e _ => entryEvolved_refl e)

/-- Every slot of the final array is the original entry or that
descriptor realized under its own name. -/
lemma runAux_objects_evolve (net : Nat → NetResult)
    (pres : List (List (String × JVal))) :
    ∀ (todo done : List Entry),
      List.Forall₂ entryEvolved (done ++ todo) (runAux net pres done todo).objects := by
  intro todo
  induction todo with
  | nil =>
      intro done
      rw [List.append_nil]
      exact forall₂_entryEvolved_refl _
  | cons e todo ih =>
      intro done
      cases e with
      | desc d =>
          cases hnet : net done.length with
          | ok fs =>
              simp only [runAux, hnet]
              refine forall₂_entryEvolved_trans ?_
                (ih (done ++ [Entry.realized d.name (setGeoJson fs d.attr d.style)]))
              rw [List.append_assoc, List.singleton_append]
              exact List.rel_append (forall₂_entryEvolved_refl done)
                (List.Forall₂.cons (Or.inr ⟨d, _, rfl, rfl⟩)
                  (forall₂_entryEvolved_refl todo))
          | noResponse =>
              simp only [runAux, hnet]
              exact forall₂_entryEvolved_refl _
          | badResponse =>
              simp only [runAux, hnet]
              exact forall₂_entryEvolved_refl _
      | realized n l =>
          cases hnet : net done.length <;>
            · simp only [runAux, hnet]
              exact forall₂_entryEvolved_refl _

/-- The trace is strictly sequential: request `j + 1` appears only after
parse `j`. -/
lemma runAux_seqOrd (net : Nat → NetResult)
    (pres : List (List (String × JVal))) :
    ∀ (todo done : List Entry),
      seqOrd done.length (runAux net pres done todo).trace := by
  intro todo
  induction todo with
  | nil =>
      intro done j pre post h
      have hm : Event.request (j + 1) ∈ pre ++ Event.request (j + 1) :: post := by simp
      rw [← h] at hm
      simp [runAux] at hm
  | cons e todo ih =>
      intro done
      have halt_case : ∀ j pre post,
          ([Event.request done.length] : List Event) = pre ++ Event.request (j + 1) :: post →
          done.length ≤ j + 1 ∧ (done.length ≤ j → Event.parsed j ∈ pre) := by
        intro j pre post h
        cases pre with
        | nil =>
            simp only [List.nil_append, List.cons.injEq] at h
            obtain ⟨h1, -⟩ := h
            injection h1 with h1
            omega
        | cons x pre =>
            simp only [List.cons_append, List.cons.injEq] at h
            exact absurd h.2 (by simp)
      cases e with
      | desc d =>
          cases hnet : net done.length with
          | ok fs =>
              intro j pre post h
              simp only [runAux, hnet] at h
              match pre, h with
              | [], h =>
                  simp only [List.nil_append, List.cons.injEq] at h
                  obtain ⟨h1, -⟩ := h
                  injection h1 with h1
                  omega
              | [x], h =>
                  simp only [List.cons_append, List.nil_append, List.cons.injEq] at h
                  exact absurd h.2.1 (by simp)
              | x :: y :: pre, h =>
                  simp only [List.cons_append, List.cons.injEq] at h
                  obtain ⟨hx, hy, hrest⟩ := h
                  have := ih (done ++ [Entry.realized d.name (setGeoJson fs d.attr d.style)])
                    j pre post (by simpa using hrest)
                  simp only [List.length_append, List.length_cons, List.length_nil] at this
                  refine ⟨by omega, ?_⟩
                  intro hij
                  rcases Nat.lt_or_ge j (done.length + 1) with hj | hj
                  · have : j = done.length := by omega
                    subst this
                    rw [hy]
                    simp
                  · have := this.2 (by omega)
                    simp [this]
          | noResponse =>
              intro j pre post h
              simp only [runAux, hnet] at h
              exact halt_case j pre post h
          | badResponse =>
              intro j pre post h
              simp only [runAux, hnet] at h
              exact halt_case j pre post h
      | realized n l =>
          cases hnet : net done.length <;>
            · intro j pre post h
              simp only [runAux, hnet] at h
              exact halt_case j pre post h

/-- At most one retrieval is in flight at any point of any trace. -/
lemma runAux_onePending (net : Nat → NetResult)
    (pres : List (List (String × JVal))) :
    ∀ (todo done : List Entry),
      onePending (runAux net pres done todo).trace := by
  intro todo
  induction todo with
  | nil =>
      intro done pre post h
      match pre, h with
      | [], _ => simp
      | [x], h =>
          simp only [runAux, List.cons_append, List.nil_append, List.cons.injEq] at h
          simp [← h.1, Event.isRequest, Event.isParsed]
      | x :: y :: pre, h =>
          simp only [runAux, List.cons_append, List.cons.injEq] at h
          exact absurd h.2 (by simp)
  | cons e todo ih =>
      intro done
      have halt_case : ∀ pre post,
          ([Event.request done.length] : List Event) = pre ++ post →
          pre.countP Event.isRequest ≤ pre.countP Event.isParsed + 1 := by
        intro pre post h
        match pre, h with
        | [], _ => simp
        | [x], h =>
            simp only [List.cons_append, List.nil_append, List.cons.injEq] at h
            simp [← h.1, Event.isRequest, Event.isParsed]
        | x :: y :: pre, h =>
            simp only [List.cons_append, List.cons.injEq] at h
            exact absurd h.2 (by simp)
      cases e with
      | desc d =>
          cases hnet : net done.length with
          | ok fs =>
              intro pre post h
              simp only [runAux, hnet] at h
              match pre, h with
              | [], _ => simp
              | [x], h =>
                  simp only [List.cons_append, List.nil_append, List.cons.injEq] at h
                  simp [← h.1, Event.isRequest, Event.isParsed]
              | x :: y :: pre, h =>
                  simp only [List.cons_append, List.cons.injEq] at h
                  obtain ⟨hx, hy, hrest⟩ := h
                  have := ih (done ++ [Entry.realized d.name (setGeoJson fs d.attr d.style)])
                    pre post hrest
                  simp [← hx, ← hy, List.countP_cons, Event.isRequest, Event.isParsed]
                  omega
          | noResponse =>
              intro pre post h
              simp only [runAux, hnet] at h
              exact halt_case pre post h
          | badResponse =>
              intro pre post h
              simp only [runAux, hnet] at h
              exact halt_case pre post h
      | realized n l =>
          cases hnet : net done.length <;>
            · intro pre post h
              simp only [runAux, hnet] at h
              exact halt_case pre post h

/-- If the first failing step within the remaining descriptors is step `k`,
the completion block never runs, no mapping reaches the control, and no
request beyond step `k` is ever issued. -/
lemma runAux_failure (net : Nat → NetResult)
    (pres : List (List (String × JVal))) :
    ∀ (ds : List Descriptor) (done : List Entry) (k : Nat),
      done.length ≤ k → k < done.length + ds.length →
      (net k).isOk = false →
      (∀ j, done.length ≤ j → j < k → (net j).isOk = true) →
      Event.complete ∉ (runAux net pres done (ds.map Entry.desc)).trace ∧
        (runAux net pres done (ds.map Entry.desc)).control = none ∧
        ∀ j, Event.request j ∈ (runAux net pres done (ds.map Entry.desc)).trace → j ≤ k := by
  intro ds
  induction ds with
  | nil =>
      intro done k h1 h2 _ _
      simp only [List.length_nil] at h2
      omega
  | cons d ds ih =>
      intro done k h1 h2 hfail hok
      by_cases hk : k = done.length
      · subst hk
        cases hnet : net done.length with
        | ok fs => rw [hnet] at hfail; simp [NetResult.isOk] at hfail
        | noResponse =>
            refine ⟨?_, ?_, ?_⟩ <;> simp [runAux, hnet]
        | badResponse =>
            refine ⟨?_, ?_, ?_⟩ <;> simp [runAux, hnet]
      · have hlt : done.length < k := by omega
        have : (net done.length).isOk = true := hok done.length (le_refl _) hlt
        cases hnet : net done.length with
        | noResponse => rw [hnet] at this; simp [NetResult.isOk] at this
        | badResponse => rw [hnet] at this; simp [NetResult.isOk] at this
        | ok fs =>
            have ihres := ih (done ++ [Entry.realized d.name (setGeoJson fs d.attr d.style)]) k
              (by simp; omega) (by simp at h2 ⊢; omega) hfail
              (by intro j hj1 hj2; exact hok j (by simp at hj1; omega) hj2)
            obtain ⟨ihc, ihctrl, ihreq⟩ := ihres
            refine ⟨?_, ?_, ?_⟩
            · simp only [List.map_cons, runAux, hnet]
              simp [ihc]
            · simp only [List.map_cons, runAux, hnet]
              exact ihctrl
            · intro j hj
              simp only [List.map_cons, runAux, hnet, List.mem_cons] at hj
              rcases hj with hj | hj | hj
              · injection hj with hj; omega
              · cases hj
              · exact ihreq j hj

/-- When every remaining retrieval succeeds, the mapping handed to the
control is the fold of the pre-parsed objects, then the already-processed
prefix, then the realized descriptors in input order. -/
lemma runAux_control_ok (net : Nat → NetResult)
    (pres : List (List (String × JVal))) :
    ∀ (ds : List Descriptor) (done : List Entry),
      (∀ j, j < ds.length → (net (done.length + j)).isOk = true) →
      (runAux net pres done (ds.map Entry.desc)).control
        = some (setFeatureLayers
            (pres ++ done.map entryAssoc ++ realizedObjects net done.length ds)) := by
  intro ds
  induction ds with
  | nil =>
      intro done _
      simp [runAux, realizedObjects]
  | cons d ds ih =>
      intro done hok
      have h0 : (net done.length).isOk = true := by
        have := hok 0 (by simp)
        simpa using this
      cases hnet : net done.length with
      | noResponse => rw [hnet] at h0; simp [NetResult.isOk] at h0
      | badResponse => rw [hnet] at h0; simp [NetResult.isOk] at h0
      | ok fs =>
          have ihres := ih (done ++ [Entry.realized d.name (setGeoJson fs d.attr d.style)])
            (by
              intro j hj
              have := hok (j + 1) (by simpa using Nat.succ_lt_succ hj)
              simp only [List.length_append, List.length_cons, List.length_nil]
              rw [show done.length + (0 + 1) + j = done.length + (j + 1) by omega]
              exact this)
          simp only [List.map_cons, runAux, hnet]
          rw [ihres]
          simp [realizedObjects, hnet, NetResult.feats, entryAssoc, List.append_assoc]

/-- The snapshot sequence starts at the given array, every snapshot keeps
the array's length, and consecutive snapshots are related by one in-place
realization step. -/
lemma runAux_states (net : Nat → NetResult)
    (pres : List (List (String × JVal))) :
    ∀ (todo done : List Entry),
      (runAux net pres done todo).states.head? = some (done ++ todo) ∧
      List.Chain' (fetchStep net) (runAux net pres done todo).states ∧
      ∀ s ∈ (runAux net pres done todo).states, s.length = done.length + todo.length := by
  intro todo
  induction todo with
  | nil =>
      intro done
      refine ⟨by simp [runAux], by simp [runAux], ?_⟩
      intro s hs
      simp only [runAux, List.mem_singleton] at hs
      simp [hs]
  | cons e todo ih =>
      intro done
      cases e with
      | desc d =>
          cases hnet : net done.length with
          | ok fs =>
              obtain ⟨ihhead, ihchain, ihlen⟩ :=
                ih (done ++ [Entry.realized d.name (setGeoJson fs d.attr d.style)])
              refine ⟨by simp [runAux, hnet], ?_, ?_⟩
              · simp only [runAux, hnet]
                rw [List.chain'_cons']
                refine ⟨?_, ihchain⟩
                intro y hy
                rw [ihhead] at hy
                simp only [Option.mem_def, Option.some.injEq] at hy
                subst hy
                refine ⟨done.length, d, fs, ?_, hnet, ?_⟩
                · exact getElem?_append_cons done todo (Entry.desc d)
                · rw [set_append_cons, List.append_assoc, List.singleton_append]
              · intro s hs
                simp only [runAux, hnet, List.mem_cons] at hs
                rcases hs with hs | hs
                · simp [hs]
                · have := ihlen s hs
                  simp only [List.length_append, List.length_cons, List.length_nil] at this
                  simp [this]
                  omega
          | noResponse =>
              refine ⟨by simp [runAux, hnet], by simp [runAux, hnet], ?_⟩
              intro s hs
              simp only [runAux, hnet, List.mem_singleton] at hs
              simp [hs]
          | badResponse =>
              refine ⟨by simp [runAux, hnet], by simp [runAux, hnet], ?_⟩
              intro s hs
              simp only [runAux, hnet, List.mem_singleton] at hs
              simp [hs]
      | realized n l =>
          cases hnet : net done.length <;>
            · refine ⟨by simp [runAux, hnet], by simp [runAux, hnet], ?_⟩
              intro s hs
              simp only [runAux, hnet, List.mem_singleton] at hs
              simp [hs]

/-! ### Lemmas about the assembled mapping's keys -/

/-- The key list after a JavaScript assignment: unchanged when the key was
already present, extended by the key otherwise. -/
lemma objInsert_keys (m : List (String × JVal)) (k : String) (v : JVal) :
    (objInsert m k v).map Prod.fst
      = if m.any (fun p => p.1 = k) then m.map Prod.fst else m.map Prod.fst ++ [k] := by
  unfold objInsert
  by_cases hany : m.any (fun p => p.1 = k)
  · simp only [hany, if_true, List.map_map]
    congr 1
    funext p
    by_cases hp : p.1 = k <;> simp [hp]
  · simp [hany]

/-- A JavaScript assignment keeps the key list duplicate-free. -/
lemma objInsert_nodup (m : List (String × JVal)) (k : String) (v : JVal)
    (h : (m.map Prod.fst).Nodup) : ((objInsert m k v).map Prod.fst).Nodup := by
  rw [objInsert_keys]
  by_cases hany : m.any (fun p => p.1 = k)
  · simpa [hany] using h
  · simp only [hany, if_false]
    have hk : k ∉ m.map Prod.fst := by
      intro hmem
      apply hany
      rw [List.any_eq_true]
      obtain ⟨p, hp, hpk⟩ := List.mem_map.mp hmem
      exact ⟨p, hp, by simp [hpk]⟩
    simp [List.nodup_append, h, hk]

/-- Folding the entries of one object keeps the key list duplicate-free. -/
lemma foldl_objInsert_nodup :
    ∀ (entries acc : List (String × JVal)), (acc.map Prod.fst).Nodup →
      ((entries.foldl (fun l kv => objInsert l kv.1 kv.2) acc).map Prod.fst).Nodup := by
  intro entries
  induction entries with
  | nil => intro acc h; exact h
  | cons kv entries ih =>
      intro acc h
      exact ih _ (objInsert_nodup acc kv.1 kv.2 h)

/-- The assembled mapping never holds the same key twice. -/
lemma setFeatureLayers_keys_nodup_aux :
    ∀ (layerGroups : List (List (String × JVal))) (acc : List (String × JVal)),
      (acc.map Prod.fst).Nodup →
      ((layerGroups.foldl (fun acc obj =>
          obj.foldl (fun l kv => objInsert l kv.1 kv.2) acc) acc).map Prod.fst).Nodup := by
  intro layerGroups
  induction layerGroups with
  | nil => intro acc h; exact h
  | cons g gs ih =>
      intro acc h
      exact ih _ (foldl_objInsert_nodup g acc h)

/-- Folding entries whose keys are all fresh simply appends them. -/
lemma foldl_objInsert_fresh :
    ∀ (entries acc : List (String × JVal)),
      (((acc ++ entries).map Prod.fst)).Nodup →
      entries.foldl (fun l kv => objInsert l kv.1 kv.2) acc = acc ++ entries := by
  intro entries
  induction entries with
  | nil => intro acc _; simp
  | cons kv entries ih =>
      intro acc h
      have hk : kv.1 ∉ acc.map Prod.fst := by
        intro hmem
        have h2 : ((acc.map Prod.fst) ++ (kv.1 :: entries.map Prod.fst)).Nodup := by
          simpa using h
        exact List.disjoint_of_nodup_append h2 hmem (by simp)
      have hany : acc.any (fun p => p.1 = kv.1) = false := by
        simp only [List.any_eq_false, decide_eq_true_eq]
        intro p hp hpk
        exact hk (List.mem_map.mpr ⟨p, hp, hpk⟩)
      have hins : objInsert acc kv.1 kv.2 = acc ++ [kv] := by
        unfold objInsert
        simp [hany]
      simp only [List.foldl_cons, hins]
      rw [ih (acc ++ [kv]) (by simpa [List.append_assoc] using h)]
      simp

/-- When all keys (accumulated and pending) are pairwise distinct, the
whole assembly fold is plain concatenation of all entries. -/
lemma setFeatureLayers_flatten_aux :
    ∀ (layerGroups : List (List (String × JVal))) (acc : List (String × JVal)),
      ((acc ++ layerGroups.flatten).map Prod.fst).Nodup →
      layerGroups.foldl (fun acc obj =>
          obj.foldl (fun l kv => objInsert l kv.1 kv.2) acc) acc
        = acc ++ layerGroups.flatten := by
  intro layerGroups
  induction layerGroups with
  | nil => intro acc _; simp
  | cons g gs ih =>
      intro acc h
      simp only [List.foldl_cons]
      have hg : ((acc ++ g).map Prod.fst).Nodup := by
        have h2 : (((acc ++ g).map Prod.fst) ++ gs.flatten.map Prod.fst).Nodup := by
          simpa [List.append_assoc] using h
        exact List.Nodup.of_append_left h2
      rw [foldl_objInsert_fresh g acc hg]
      rw [ih (acc ++ g) (by simpa [List.append_assoc] using h)]
      simp

/-- Invariant of the click handler: the user-placed markers on the map are
exactly the content of the `m.userInput` reference. -/
lemma clicks_markers_eq_userInput :
    ∀ (clicks : List LatLng) (s : ClickState),
      s.mapMarkers = s.userInput.toList →
      (clicks.foldl onClick s).mapMarkers = (clicks.foldl onClick s).userInput.toList := by
  intro clicks
  induction clicks with
  | nil => intro s h; exact h
  | cons p clicks ih =>
      intro s h
      rw [List.foldl_cons]
      apply ih
      cases hu : s.userInput with
      | none => simp [onClick, hu, h]
      | some mk => simp [onClick, hu, removeLayer, h]

/-- Combining a pointwise relation with a property of the right list. -/
lemma forall₂_and_right_mem {α β : Type} {R : α → β → Prop} {Q : β → Prop} :
    ∀ {l1 : List α} {l2 : List β}, List.Forall₂ R l1 l2 → (∀ b ∈ l2, Q b) →
      List.Forall₂ (fun a b => R a b ∧ Q b) l1 l2 := by
  intro l1 l2 h hq
  induction h with
  | nil => exact List.Forall₂.nil
  | cons hr ht ih =>
      exact List.Forall₂.cons ⟨hr, hq _ (by simp)⟩ (ih (fun b hb => hq b (by simp [hb])))


/-- Overwriting an existing key: the lookup afterwards finds the new
value. -/
lemma find?_overwrite_hit :
    ∀ (m : List (String × JVal)) (k : String) (v : JVal),
      m.any (fun p => p.1 = k) = true →
      (m.map (fun p => if p.1 = k then (k, v) else p)).find? (fun p => p.1 = k)
        = some (k, v) := by
  intro m k v h
  induction m with
  | nil => simp at h
  | cons p m ih =>
      by_cases hp : p.1 = k
      · simp [hp]
      · simp only [List.any_cons, Bool.or_eq_true, decide_eq_true_eq] at h
        rcases h with h | h
        · exact absurd h hp
        · simp [hp, ih h]

/-- Overwriting one key leaves the lookup of every other key unchanged. -/
lemma find?_overwrite_miss :
    ∀ (m : List (String × JVal)) (k k2 : String) (v : JVal), k2 ≠ k →
      (m.map (fun p => if p.1 = k then (k, v) else p)).find? (fun p => p.1 = k2)
        = m.find? (fun p => p.1 = k2) := by
  intro m k k2 v hne
  induction m with
  | nil => simp
  | cons p m ih =>
      by_cases hp : p.1 = k
      · have hp2 : ¬ p.1 = k2 := by rw [hp]; exact fun h => hne h.symm
        have hk2 : ¬ (k = k2) := fun h => hne h.symm
        rw [List.map_cons, if_pos hp]
        rw [List.find?_cons_of_neg _ (by simpa using hk2)]
        rw [List.find?_cons_of_neg _ (by simpa using hp2)]
        exact ih
      · rw [List.map_cons, if_neg hp]
        by_cases hp2 : p.1 = k2
        · rw [List.find?_cons_of_pos _ (by simpa using hp2)]
          rw [List.find?_cons_of_pos _ (by simpa using hp2)]
        · rw [List.find?_cons_of_neg _ (by simpa using hp2)]
          rw [List.find?_cons_of_neg _ (by simpa using hp2)]
          exact ih

/-- A JavaScript assignment stores the new value under its key and leaves
every other key's value alone — in the overwrite case as much as in the
fresh-key case. -/
lemma valueAt_objInsert (m : List (String × JVal)) (k k2 : String) (v : JVal) :
    valueAt (objInsert m k v) k2 = if k2 = k then some v else valueAt m k2 := by
  unfold objInsert valueAt
  by_cases hany : m.any (fun p => p.1 = k)
  · rw [if_pos hany]
    by_cases hk : k2 = k
    · subst hk
      rw [find?_overwrite_hit m k2 v hany]
      simp
    · rw [find?_overwrite_miss m k k2 v hk]
      simp [hk]
  · rw [if_neg hany]
    have hnone : m.find? (fun p => p.1 = k) = none := by
      rw [List.find?_eq_none]
      intro p hp
      simp only [decide_eq_true_eq]
      intro hpk
      exact hany (List.any_eq_true.mpr ⟨p, hp, by simp [hpk]⟩)
    by_cases hk : k2 = k
    · subst hk
      simp [List.find?_append, hnone]
    · have hne : ¬ (k = k2) := fun h => hk h.symm
      simp [List.find?_append, hk, hne]

/-- Folding a sequence of assignments is last-write-wins: the value stored
under a key is the value of the last inserted entry with that key, and the
accumulator's value where no entry has the key. -/
lemma valueAt_foldl_objInsert :
    ∀ (entries acc : List (String × JVal)) (k : String),
      valueAt (entries.foldl (fun l kv => objInsert l kv.1 kv.2) acc) k
        = (((entries.filter (fun p => p.1 = k)).getLast?).map Prod.snd).or
            (valueAt acc k) := by
  intro entries
  induction entries with
  | nil => intro acc k; simp
  | cons kv entries ih =>
      intro acc k
      rw [List.foldl_cons, ih]
      by_cases hk : kv.1 = k
      · cases hfl : entries.filter (fun p => p.1 = k) with
        | nil =>
            have hkk : k = kv.1 := hk.symm
            rw [valueAt_objInsert, if_pos hkk]
            simp [List.filter_cons, hk, hfl, Option.none_or, Option.or]
        | cons q qs =>
            obtain ⟨p, hp⟩ : ∃ p, (q :: qs).getLast? = some p := by
              cases hgl : (q :: qs).getLast? with
              | none => exact absurd (List.getLast?_eq_none_iff.mp hgl) (by simp)
              | some p => exact ⟨p, rfl⟩
            simp [List.filter_cons, hk, hfl, List.getLast?_cons_cons, hp, Option.or]
      · have hkk : ¬ (k = kv.1) := fun h => hk h.symm
        rw [valueAt_objInsert, if_neg hkk]
        simp [List.filter_cons, hk]

/-! ### The claims -/

/-- C1: for every non-empty descriptor list, the sequencer runs its
completion step (building the layer mapping and attaching the layer
control) at most once, and only after every descriptor in the array has
been replaced by a realized entry mapping that descriptor's name to a
parsed layer. -/
theorem claim1_complete_once_after_realization (net : Nat → NetResult)
    (pres : List (List (String × JVal))) (descs : List Descriptor)
    (_hne : descs ≠ []) :
    ((setAllControls net (descs.map Entry.desc) pres).trace.countP Event.isComplete) ≤ 1 ∧
      (Event.complete ∈ (setAllControls net (descs.map Entry.desc) pres).trace →
        List.Forall₂ (fun d e => ∃ l, e = Entry.realized d.name l) descs
          (setAllControls net (descs.map Entry.desc) pres).objects) := by
  constructor
  · exact runAux_countComplete net pres (descs.map Entry.desc) []
  · intro hmem
    have hreal := runAux_complete_realized net pres (descs.map Entry.desc) []
      (by intro e he; cases he) hmem
    have hev : List.Forall₂ entryEvolved (descs.map Entry.desc)
        (setAllControls net (descs.map Entry.desc) pres).objects := by
      simpa [setAllControls] using runAux_objects_evolve net pres (descs.map Entry.desc) []
    have hevm : List.Forall₂ (fun d e => entryEvolved (Entry.desc d) e) descs
        (setAllControls net (descs.map Entry.desc) pres).objects :=
      List.forall₂_map_left_iff.mp hev
    refine List.Forall₂.imp ?_ (forall₂_and_right_mem hevm hreal)
    intro d e he
    obtain ⟨hev, hr⟩ := he
    rcases hev with rfl | ⟨d2, l, hd, he⟩
    · simp [Entry.isRealized] at hr
    · injection hd with hd
      subst hd
      exact ⟨l, he⟩

/-- C1 witness: a one-descriptor list with a successful network. -/
theorem claim1_witness :
    (([{ name := "A", attr := "a", src := "s", style := { color := "g" } }]
        : List Descriptor) ≠ []) ∧
      (((setAllControls (fun _ => NetResult.ok [])
          ([{ name := "A", attr := "a", src := "s", style := { color := "g" } }].map
            Entry.desc) []).trace.countP Event.isComplete) ≤ 1 ∧
        (Event.complete ∈ (setAllControls (fun _ => NetResult.ok [])
            ([{ name := "A", attr := "a", src := "s", style := { color := "g" } }].map
              Entry.desc) []).trace →
          List.Forall₂ (fun (d : Descriptor) (e : Entry) => ∃ l, e = Entry.realized d.name l)
            [{ name := "A", attr := "a", src := "s", style := { color := "g" } }]
            (setAllControls (fun _ => NetResult.ok [])
              ([{ name := "A", attr := "a", src := "s", style := { color := "g" } }].map
                Entry.desc) []).objects)) :=
  ⟨by decide,
    claim1_complete_once_after_realization (fun _ => NetResult.ok []) []
      [{ name := "A", attr := "a", src := "s", style := { color := "g" } }] (by decide)⟩

/-- C2: when every retrieval succeeds, the mapping handed to the control is
built by folding in, in order, the pre-parsed objects first and then the
realized descriptor entries in descriptor input order. -/
theorem claim2_mapping_merge_order (net : Nat → NetResult)
    (pres : List (List (String × JVal))) (descs : List Descriptor)
    (hok : ∀ j, j < descs.length → (net j).isOk = true) :
    (setAllControls net (descs.map Entry.desc) pres).control
      = some (setFeatureLayers (pres ++ realizedObjects net 0 descs)) := by
  have h := runAux_control_ok net pres descs []
    (by intro j hj; simpa using hok j hj)
  simpa [setAllControls] using h

/-- C2 witness: two descriptors and one pre-parsed entry, all retrievals
succeeding. -/
theorem claim2_witness :
    (∀ j, j < ([{ name := "A", attr := "a", src := "s", style := { color := "g" } },
        { name := "B", attr := "b", src := "t", style := { color := "h" } }]
          : List Descriptor).length →
        ((fun _ => NetResult.ok []) j).isOk = true) ∧
      (setAllControls (fun _ => NetResult.ok [])
          ([{ name := "A", attr := "a", src := "s", style := { color := "g" } },
            { name := "B", attr := "b", src := "t", style := { color := "h" } }].map
            Entry.desc)
          [[("Enemies", JVal.str "marker")]]).control
        = some (setFeatureLayers ([[("Enemies", JVal.str "marker")]]
            ++ realizedObjects (fun _ => NetResult.ok []) 0
              [{ name := "A", attr := "a", src := "s", style := { color := "g" } },
                { name := "B", attr := "b", src := "t", style := { color := "h" } }])) :=
  ⟨by decide,
    claim2_mapping_merge_order (fun _ => NetResult.ok []) [[("Enemies", JVal.str "marker")]]
      [{ name := "A", attr := "a", src := "s", style := { color := "g" } },
        { name := "B", attr := "b", src := "t", style := { color := "h" } }] (by decide)⟩

/-- C3: retrievals are strictly sequential: the request for descriptor
`j + 1` appears in the trace only after the response for descriptor `j`
has been parsed, and in every prefix of the trace at most one retrieval is
in flight. -/
theorem claim3_sequential_retrieval (net : Nat → NetResult)
    (pres : List (List (String × JVal))) (descs : List Descriptor) :
    (∀ j pre post,
        (setAllControls net (descs.map Entry.desc) pres).trace
            = pre ++ Event.request (j + 1) :: post →
          Event.parsed j ∈ pre) ∧
      (∀ pre post,
        (setAllControls net (descs.map Entry.desc) pres).trace = pre ++ post →
          pre.countP Event.isRequest ≤ pre.countP Event.isParsed + 1) := by
  constructor
  · intro j pre post h
    exact (runAux_seqOrd net pres (descs.map Entry.desc) [] j pre post h).2 (Nat.zero_le j)
  · intro pre post h
    exact runAux_onePending net pres (descs.map Entry.desc) [] pre post h

/-- C3 witness: with two descriptors and a successful network, the second
request sits after the first parse in the trace. -/
theorem claim3_witness :
    ((setAllControls (fun _ => NetResult.ok [])
        ([{ name := "A", attr := "a", src := "s", style := { color := "g" } },
          { name := "B", attr := "b", src := "t", style := { color := "h" } }].map
          Entry.desc) []).trace
      = [Event.request 0, Event.parsed 0]
          ++ Event.request (0 + 1) :: [Event.parsed 1, Event.complete]) ∧
      Event.parsed 0 ∈ [Event.request 0, Event.parsed 0] :=
  ⟨by decide,
    (claim3_sequential_retrieval (fun _ => NetResult.ok []) []
      [{ name := "A", attr := "a", src := "s", style := { color := "g" } },
        { name := "B", attr := "b", src := "t", style := { color := "h" } }]).1
      0 [Event.request 0, Event.parsed 0] [Event.parsed 1, Event.complete] (by decide)⟩

/-- C4: the array's length and index identities are fixed for the whole
fetch sequence: the snapshot sequence starts at the descriptor array, every
snapshot has the original length, and each step rewrites exactly one slot,
via `set`, from a descriptor to the one-key realized entry carrying that
descriptor's name and parsed layer. -/
theorem claim4_inplace_realization (net : Nat → NetResult)
    (pres : List (List (String × JVal))) (descs : List Descriptor) :
    (∀ s ∈ (setAllControls net (descs.map Entry.desc) pres).states,
        s.length = descs.length) ∧
      (setAllControls net (descs.map Entry.desc) pres).states.head?
          = some (descs.map Entry.desc) ∧
      List.Chain' (fetchStep net) (setAllControls net (descs.map Entry.desc) pres).states ∧
      List.Forall₂ entryEvolved (descs.map Entry.desc)
        (setAllControls net (descs.map Entry.desc) pres).objects := by
  obtain ⟨hhead, hchain, hlen⟩ := runAux_states net pres (descs.map Entry.desc) []
  refine ⟨?_, by simpa using hhead, hchain, ?_⟩
  · intro s hs
    simpa using hlen s hs
  · simpa [setAllControls] using runAux_objects_evolve net pres (descs.map Entry.desc) []

/-- C4 witness: the initial snapshot of a one-descriptor run has the
descriptor list's length. -/
theorem claim4_witness :
    ([Entry.desc { name := "A", attr := "a", src := "s", style := { color := "g" } }]
        ∈ (setAllControls (fun _ => NetResult.ok [])
            ([{ name := "A", attr := "a", src := "s", style := { color := "g" } }].map
              Entry.desc) []).states) ∧
      ([Entry.desc { name := "A", attr := "a", src := "s", style := { color := "g" } }]
          : List Entry).length
        = ([{ name := "A", attr := "a", src := "s", style := { color := "g" } }]
            : List Descriptor).length :=
  ⟨by decide,
    (claim4_inplace_realization (fun _ => NetResult.ok []) []
      [{ name := "A", attr := "a", src := "s", style := { color := "g" } }]).1
      _ (by decide)⟩

/-- C5: if the retrieval or the parse for descriptor `k` fails while every
earlier step succeeded, the sequence halts permanently: no completion, no
mapping handed to the control, and no request beyond step `k`. -/
theorem claim5_failure_halts (net : Nat → NetResult)
    (pres : List (List (String × JVal))) (descs : List Descriptor) (k : Nat)
    (hk : k < descs.length) (hfail : (net k).isOk = false)
    (hbefore : ∀ j, j < k → (net j).isOk = true) :
    Event.complete ∉ (setAllControls net (descs.map Entry.desc) pres).trace ∧
      (setAllControls net (descs.map Entry.desc) pres).control = none ∧
      ∀ j, Event.request j ∈ (setAllControls net (descs.map Entry.desc) pres).trace →
        j ≤ k := by
  exact runAux_failure net pres descs [] k (Nat.zero_le k) (by simpa using hk) hfail
    (fun j _ hj => hbefore j hj)

/-- C5 witness: two descriptors, A then B; A's retrieval fails. -/
theorem claim5_witness :
    ((0 : Nat) < ([{ name := "A", attr := "a", src := "s", style := { color := "g" } },
        { name := "B", attr := "b", src := "t", style := { color := "h" } }]
          : List Descriptor).length) ∧
      ((fun _ => NetResult.noResponse) 0).isOk = false ∧
      (Event.complete ∉ (setAllControls (fun _ => NetResult.noResponse)
          ([{ name := "A", attr := "a", src := "s", style := { color := "g" } },
            { name := "B", attr := "b", src := "t", style := { color := "h" } }].map
            Entry.desc) []).trace ∧
        (setAllControls (fun _ => NetResult.noResponse)
            ([{ name := "A", attr := "a", src := "s", style := { color := "g" } },
              { name := "B", attr := "b", src := "t", style := { color := "h" } }].map
              Entry.desc) []).control = none ∧
        ∀ j, Event.request j ∈ (setAllControls (fun _ => NetResult.noResponse)
            ([{ name := "A", attr := "a", src := "s", style := { color := "g" } },
              { name := "B", attr := "b", src := "t", style := { color := "h" } }].map
              Entry.desc) []).trace → j ≤ 0) :=
  ⟨by decide, by decide,
    claim5_failure_halts (fun _ => NetResult.noResponse) []
      [{ name := "A", attr := "a", src := "s", style := { color := "g" } },
        { name := "B", attr := "b", src := "t", style := { color := "h" } }] 0
      (by decide) (by decide) (fun j hj => absurd hj (Nat.not_lt_zero j))⟩

/-- C6: for every feature of a parsed document, the popup bound to it
carries the value of `properties[labelAttribute]` when that property is
present and non-null, and the fixed placeholder "Unnamed" when the
property is missing or null. -/
theorem claim6_popup_label (json : List Feature) (labelAttr : String) (st : Style)
    (f : Feature) (hf : f ∈ json) :
    ((lookupProp f.props labelAttr = none ∨
        lookupProp f.props labelAttr = some PropVal.null) →
      (f, PropVal.str "Unnamed") ∈ (setGeoJson json labelAttr st).bound) ∧
      (∀ s, lookupProp f.props labelAttr = some (PropVal.str s) →
        (f, PropVal.str s) ∈ (setGeoJson json labelAttr st).bound) := by
  constructor
  · intro h
    have hp : popupContent f.props labelAttr = PropVal.str "Unnamed" := by
      rcases h with h | h <;> simp [popupContent, h, jsEqNull]
    rw [← hp]
    exact List.mem_map.mpr ⟨f, hf, rfl⟩
  · intro s hs
    have hp : popupContent f.props labelAttr = PropVal.str s := by
      simp [popupContent, hs, jsEqNull]
    rw [← hp]
    exact List.mem_map.mpr ⟨f, hf, rfl⟩

/-- C6 witness: a feature with no value for the configured label attribute
yields a popup reading "Unnamed"; one with a value yields that value. -/
theorem claim6_witness :
    (({ props := [] } : Feature) ∈ [({ props := [] } : Feature)]) ∧
      ((lookupProp ({ props := [] } : Feature).props "offname" = none ∨
          lookupProp ({ props := [] } : Feature).props "offname" = some PropVal.null) →
        (({ props := [] } : Feature), PropVal.str "Unnamed")
          ∈ (setGeoJson [({ props := [] } : Feature)] "offname"
              { color := "green" }).bound) ∧
      (∀ s, lookupProp ({ props := [] } : Feature).props "offname"
            = some (PropVal.str s) →
        (({ props := [] } : Feature), PropVal.str s)
          ∈ (setGeoJson [({ props := [] } : Feature)] "offname"
              { color := "green" }).bound) :=
  ⟨by decide,
    (claim6_popup_label [{ props := [] }] "offname" { color := "green" }
      { props := [] } (by decide)).1,
    (claim6_popup_label [{ props := [] }] "offname" { color := "green" }
      { props := [] } (by decide)).2⟩

/-- C7 counterexample: the claim that a later entry never silently
overwrites an earlier entry of the same name is false: with two entries
named "Enemies", the assembled mapping keeps only the later value and the
earlier one is silently lost. -/
theorem claim7_counterexample :
    setFeatureLayers [[("Enemies", JVal.str "first")], [("Enemies", JVal.str "second")]]
        = [("Enemies", JVal.str "second")] ∧
      ("Enemies", JVal.str "first")
        ∉ setFeatureLayers [[("Enemies", JVal.str "first")],
            [("Enemies", JVal.str "second")]] := by
  constructor <;> decide

/-- C7 (amended): the assembled mapping's keys are always unique, but a
name collision does lose the earlier layer silently: the value stored
under every name is the value of the last entry inserted with that name
(last write wins), and only when all entry names (pre-parsed and fetched)
are pairwise distinct is no entry lost — then the mapping is exactly the
concatenation of all entries in insertion order. -/
theorem claim7_amended_last_write_wins (layerGroups : List (List (String × JVal))) :
    ((setFeatureLayers layerGroups).map Prod.fst).Nodup ∧
      (∀ k, valueAt (setFeatureLayers layerGroups) k
          = ((layerGroups.flatten.filter (fun p => p.1 = k)).getLast?).map Prod.snd) ∧
      ((layerGroups.flatten.map Prod.fst).Nodup →
        setFeatureLayers layerGroups = layerGroups.flatten) := by
  refine ⟨?_, ?_, ?_⟩
  · simpa [setFeatureLayers] using
      setFeatureLayers_keys_nodup_aux layerGroups [] (by simp)
  · intro k
    have h1 : setFeatureLayers layerGroups
        = layerGroups.flatten.foldl (fun l kv => objInsert l kv.1 kv.2) [] := by
      rw [setFeatureLayers]
      exact (List.foldl_flatten _ _ _).symm
    rw [h1, valueAt_foldl_objInsert]
    simp [valueAt, Option.or_none]
  · intro h
    have := setFeatureLayers_flatten_aux layerGroups [] (by simpa using h)
    simpa [setFeatureLayers] using this

/-- C7 witness: on a genuine collision the stored value is the later one
(applying the unconditional conjuncts), and with distinct names both
entries are kept in order (discharging the Nodup hypothesis). -/
theorem claim7_witness :
    ((setFeatureLayers [[("A", JVal.str "x")], [("A", JVal.str "y")]]).map
        Prod.fst).Nodup ∧
      valueAt (setFeatureLayers [[("A", JVal.str "x")], [("A", JVal.str "y")]]) "A"
        = ((([[("A", JVal.str "x")], [("A", JVal.str "y")]]
              : List (List (String × JVal))).flatten.filter
            (fun p => p.1 = "A")).getLast?).map Prod.snd ∧
      (([[("B", JVal.str "x")], [("C", JVal.str "y")]]
          : List (List (String × JVal))).flatten.map Prod.fst).Nodup ∧
      setFeatureLayers [[("B", JVal.str "x")], [("C", JVal.str "y")]]
        = ([[("B", JVal.str "x")], [("C", JVal.str "y")]]
            : List (List (String × JVal))).flatten :=
  ⟨(claim7_amended_last_write_wins [[("A", JVal.str "x")], [("A", JVal.str "y")]]).1,
    (claim7_amended_last_write_wins [[("A", JVal.str "x")], [("A", JVal.str "y")]]).2.1 "A",
    by decide,
    (claim7_amended_last_write_wins [[("B", JVal.str "x")], [("C", JVal.str "y")]]).2.2
      (by decide)⟩

/-- C8: over any sequence of map clicks at most one transient user-placed
marker exists at any time, and after two clicks exactly one transient
marker exists, at the second click's location. -/
theorem claim8_single_transient_marker (clicks : List LatLng) (p1 p2 : LatLng) :
    (runClicks clicks).mapMarkers.length ≤ 1 ∧
      (runClicks [p1, p2]).mapMarkers.map Marker.pos = [p2] := by
  constructor
  · have h := clicks_markers_eq_userInput clicks initClickState rfl
    rw [runClicks, h]
    cases (clicks.foldl onClick initClickState).userInput <;> simp
  · simp [runClicks, initClickState, onClick, removeLayer]

/-- C9: an empty descriptor list with one pre-parsed entry completes
immediately and synchronously — the trace is just the completion step, no
retrieval is ever issued, the mapping handed to the control contains
exactly the one pre-parsed entry, and the features list is even returned
synchronously. -/
theorem claim9_empty_descriptors (net : Nat → NetResult) (n : String) (l : Layer) :
    (setAllControls net [] [[(n, JVal.layer l)]]).trace = [Event.complete] ∧
      (setAllControls net [] [[(n, JVal.layer l)]]).control = some [(n, JVal.layer l)] ∧
      (setAllControls net [] [[(n, JVal.layer l)]]).retVal = some [[(n, JVal.layer l)]] :=
  ⟨rfl, rfl, rfl⟩

/-- C10: `setAllControls` returns the assembled features list to its caller
exactly when the descriptor list is empty; for any non-empty list the
synchronous return value is `undefined` (the base case's `return` happens
inside the asynchronous `onload` callback and is discarded). -/
theorem claim10_return_value (net : Nat → NetResult)
    (pres : List (List (String × JVal))) (descs : List Descriptor) :
    (setAllControls net (descs.map Entry.desc) pres).retVal
      = if descs = [] then some (pres ++ (descs.map Entry.desc).map entryAssoc)
        else none := by
  cases descs with
  | nil => simp [setAllControls, runAux]
  | cons d ds =>
      cases hnet : net 0 <;>
        simp [setAllControls, runAux, hnet]
